import Mathlib

/-!
Verification of the SBL (serial bootloader) core of the CC1310 flasher.

The definitions below are a shallow embedding of `src/sbl.c`:

* machine integers are modelled as `Nat` with explicit reductions modulo
  `2^32` (`uint32_t`, `unsigned`) and `2^64` (`size_t`) at the operations
  where C would wrap;
* the serial transport is modelled as a list of per-call read results
  (`RxEv`) consumed one `serial_read_timeout` call at a time, plus a list
  of issued write calls;
* the device seen by `sbl_program_binary` through the helper commands is
  an oracle (`Dev`) giving the transport-level outcome of each
  `sbl_sector_erase` / `sbl_get_status` / `sbl_download` / `sbl_send_data`
  call;
* C undefined behaviour (division by zero for `page_size == 0`, a wrapping
  erase loop) is modelled by `Option`, `none` meaning "no defined result".
-/

namespace CC1310

/-- Modulus of the C `size_t` type (64-bit). -/
def W64 : Nat := 2 ^ 64

/-- Modulus of the C `uint32_t` type. -/
def U32 : Nat := 2 ^ 32

/-- Bitwise complement of a value of C type `uint32_t`, as an arithmetic
operation: `~x = 2^32 - 1 - x` for `x < 2^32`. -/
def not32 (x : Nat) : Nat := U32 - 1 - x % U32

/-- ACK byte of the TI serial bootloader (`SBL_ACK` in `sbl.h`). -/
def SBL_ACK : Nat := 0xCC

/-- NACK byte of the TI serial bootloader (`SBL_NACK` in `sbl.h`). -/
def SBL_NACK : Nat := 0x33

/-- Command byte `CMD_GET_CHIP_ID` from `sbl.h`. -/
def CMD_GET_CHIP_ID : Nat := 0x28

/-- Command byte `CMD_CRC32` from `sbl.h`. -/
def CMD_CRC32 : Nat := 0x27

/-- The uncapped erase length of `sbl_program_binary`:
`uint32_t erase_len = (image_len + page_size - 1) & ~(page_size - 1);`
with `image_len : size_t` and `page_size : uint32_t` (so the complemented
mask is zero-extended to 64 bits by the usual C conversions, and the `&`
result is below `2^32`). -/
def erase_len_raw (page_size image_len : Nat) : Nat :=
  ((image_len + page_size - 1) % W64) &&& not32 (page_size - 1)

/-- `uint32_t last_page_start = flash_size - page_size;` (the CCFG page). -/
def last_page_start (flash_size page_size : Nat) : Nat :=
  (flash_size + U32 - page_size) % U32

/-- The erase length after the CCFG cap of `sbl_program_binary`:
`if (base_addr + erase_len > last_page_start) erase_len = last_page_start - base_addr;`
in `uint32_t` arithmetic. -/
def erase_len_capped (flash_size page_size image_len base_addr : Nat) : Nat :=
  let e := erase_len_raw page_size image_len
  let lps := last_page_start flash_size page_size
  if lps < (base_addr + e) % U32 then (lps + U32 - base_addr) % U32 else e

/-- The preamble of `sbl_program_binary`: `none` models the C undefined
behaviour of `base_addr % page_size` when `page_size = 0`; `some none` is
the misaligned-base-address error return; `some (some e)` carries the
computed (capped) erase length. -/
def sbl_plan (flash_size page_size image_len base_addr : Nat) : Option (Option Nat) :=
  if page_size = 0 then none
  else if base_addr % page_size ≠ 0 then some none
  else some (some (erase_len_capped flash_size page_size image_len base_addr))

/-- Rounding up to a multiple, following the words of the spec:
`round_up(image_len, page_size)` (for comparison with the code's mask
formula, which agrees with it only for power-of-two page sizes). -/
def spec_round_up (n p : Nat) : Nat := (n + p - 1) / p * p

/-- The 4-byte-aligned transfer length of `sbl_program_binary`
(`size_t` arithmetic):
`size_t remainder = image_len % 4; size_t total_len = image_len;
 if (remainder != 0) total_len += (4 - remainder);`. -/
def total_len (image_len : Nat) : Nat :=
  if image_len % 4 ≠ 0 then (image_len + (4 - image_len % 4)) % W64 else image_len

/-- The outcome of one `serial_read_timeout(fd, buf, 1, ...)` call as seen
by the SBL core: a transport error (`n < 0`), no byte within the slice
(`n == 0`), or one delivered byte. A device behaviour is a list of these,
consumed one read call at a time; an exhausted list behaves like a silent
device (every further read times out). -/
inductive RxEv
  | err
  | nothing
  | byte (b : Nat)
deriving DecidableEq, Repr

/-- Result of `sbl_wait_ack`: ACK seen, NACK seen (C sets `errno = EPROTO`,
the spec's `Rejected`), hard transport error (`IoError`), or budget
exhausted (C sets `errno = ETIMEDOUT`). -/
inductive AckRes
  | ack
  | rejected
  | ioError
  | timeout
deriving DecidableEq, Repr

/-- The polling loop of `sbl_wait_ack`: one read per 20 ms slice, `waited`
advanced by 20 per iteration whether or not a byte arrived; ACK/NACK stop
the loop, all other bytes are discarded. Returns the result together with
the unconsumed part of the event list. -/
def wait_ack_go (evs : List RxEv) (waited timeout_ms : Nat) : AckRes × List RxEv :=
  if waited < timeout_ms then
    match evs with
    | [] => wait_ack_go [] (waited + 20) timeout_ms
    | .err :: rest => (.ioError, rest)
    | .nothing :: rest => wait_ack_go rest (waited + 20) timeout_ms
    | .byte b :: rest =>
      if b = SBL_ACK then (.ack, rest)
      else if b = SBL_NACK then (.rejected, rest)
      else wait_ack_go rest (waited + 20) timeout_ms
  else (.timeout, evs)
termination_by timeout_ms - waited
decreasing_by all_goals omega

/-- `sbl_wait_ack(fd, timeout_ms)` run against a device behaviour. -/
def sbl_wait_ack (evs : List RxEv) (timeout_ms : Nat) : AckRes :=
  (wait_ack_go evs 0 timeout_ms).1

/-- An event the `sbl_wait_ack` loop does not discard: a transport error,
the ACK byte, or the NACK byte. -/
def sigEv : RxEv → Prop
  | .err => True
  | .nothing => False
  | .byte b => b = SBL_ACK ∨ b = SBL_NACK

/-- Budget-free scan for the first significant event (proof helper used to
factor the characterisation of `sbl_wait_ack`). -/
def ackScan : List RxEv → AckRes
  | [] => .timeout
  | .err :: _ => .ioError
  | .nothing :: rest => ackScan rest
  | .byte b :: rest =>
    if b = SBL_ACK then .ack
    else if b = SBL_NACK then .rejected
    else ackScan rest

/-- Result of `read_exact_timeout`: all bytes read (`return 1`), a slice
with no data (`return 0`), or a transport error (`return -1`). -/
inductive ReadRes
  | ok (bytes : List Nat)
  | readTimeout
  | readErr
deriving DecidableEq, Repr

/-- `read_exact_timeout(fd, buf, len, timeout_ms)` against a device
behaviour, one byte per `serial_read_timeout` call. Returns the outcome
and the unconsumed events. -/
def read_exact : List RxEv → Nat → ReadRes × List RxEv
  | evs, 0 => (.ok [], evs)
  | [], _ + 1 => (.readTimeout, [])
  | .err :: rest, _ + 1 => (.readErr, rest)
  | .nothing :: rest, _ + 1 => (.readTimeout, rest)
  | .byte b :: rest, n + 1 =>
    match read_exact rest n with
    | (.ok bs, rest2) => (.ok (b :: bs), rest2)
    | other => other

/-- The `errno`-style error kinds surfaced by the embedded functions:
`EINVAL`, a transport error, `EPROTO`, `ETIMEDOUT`, `EMSGSIZE`. -/
inductive Err
  | inval
  | io
  | proto
  | timedout
  | msgsize
deriving DecidableEq, Repr

/-- `checksum_sum` from `sbl.c`: a 32-bit `unsigned` accumulator summed
over the payload, then truncated with `& 0xFF` (cast to `uint8_t`). -/
def checksum_sum (data : List Nat) : Nat :=
  (data.foldl (fun s b => (s + b) % U32) 0) &&& 0xFF

/-- Shallow embedding of `sbl_send_cmd`. The first component is the C
return value: `ok (payload_len, payload)` for a decoded response (payload
length `0` with empty payload when the device sent none), or the
errno-style error of the `-1` returns. The second component is the list of
transport write calls issued, in order, each one a byte list. `wantOut`
and `out_max` model the `out`/`out_max` arguments. -/
def sbl_send_cmd (data : List Nat) (wantOut : Bool) (out_max timeout_ms : Nat)
    (evs : List RxEv) : Except Err (Nat × List Nat) × List (List Nat) :=
  if data.length = 0 ∨ 253 < data.length then (.error .inval, [])
  else
    let size := (data.length + 2) % 256
    let frame := size :: checksum_sum data :: data
    match wait_ack_go evs 0 timeout_ms with
    | (.ioError, _) => (.error .io, [frame])
    | (.rejected, _) => (.error .proto, [frame])
    | (.timeout, _) => (.error .timedout, [frame])
    | (.ack, evs1) =>
      if wantOut ∧ out_max ≠ 0 then
        match read_exact evs1 1 with
        | (.ok sz1, evs2) =>
          let sz := sz1.getD 0 0
          if sz ≠ 0 then
            match read_exact evs2 1 with
            | (.ok c1, evs3) =>
              let rx_csum := c1.getD 0 0
              let payload_len := (sz + (W64 - 2)) % W64
              if out_max < payload_len then (.error .msgsize, [frame])
              else
                match read_exact evs3 payload_len with
                | (.ok payload, _) =>
                  if checksum_sum payload ≠ rx_csum then
                    (.error .proto, [frame, [0x00, SBL_ACK]])
                  else (.ok (payload_len, payload), [frame, [0x00, SBL_ACK]])
                | (.readTimeout, _) => (.error .timedout, [frame])
                | (.readErr, _) => (.error .io, [frame])
            | (.readTimeout, _) => (.error .timedout, [frame])
            | (.readErr, _) => (.error .io, [frame])
          else (.ok (0, []), [frame])
        | (.readTimeout, _) => (.ok (0, []), [frame])
        | (.readErr, _) => (.ok (0, []), [frame])
      else (.ok (0, []), [frame])

/-- `sbl_get_chip_id`: sends `[CMD_GET_CHIP_ID]`, and decodes a 4-byte
response little-endian; `none` models `*chip_id_out` left unset when the
response length is not 4 (the C function still returns 0 then). -/
def sbl_get_chip_id (timeout_ms : Nat) (evs : List RxEv) :
    Except Err (Option Nat) × List (List Nat) :=
  match sbl_send_cmd [CMD_GET_CHIP_ID] true 4 timeout_ms evs with
  | (.error e, w) => (.error e, w)
  | (.ok (n, resp), w) =>
    (.ok (if n = 4 then
        some (resp.getD 0 0 ||| (resp.getD 1 0 <<< 8) |||
          (resp.getD 2 0 <<< 16) ||| (resp.getD 3 0 <<< 24))
      else none), w)

/-- One big-endian byte of a `uint32_t` field, `(uint8_t)(x >> shift)`. -/
def be_byte (x shift : Nat) : Nat := (x >>> shift) % 256

/-- `sbl_crc32`: sends `[CMD_CRC32, addr(4B BE), len(4B BE), repeat(4B BE)]`
and decodes the 4-byte response big-endian; a response of any other length
is `EPROTO`. -/
def sbl_crc32 (addr len rep timeout_ms : Nat) (evs : List RxEv) :
    Except Err Nat × List (List Nat) :=
  let msg := [CMD_CRC32,
    be_byte addr 24, be_byte addr 16, be_byte addr 8, be_byte addr 0,
    be_byte len 24, be_byte len 16, be_byte len 8, be_byte len 0,
    be_byte rep 24, be_byte rep 16, be_byte rep 8, be_byte rep 0]
  match sbl_send_cmd msg true 4 timeout_ms evs with
  | (.error e, w) => (.error e, w)
  | (.ok (n, resp), w) =>
    if n = 4 then
      (.ok ((resp.getD 0 0 <<< 24) ||| (resp.getD 1 0 <<< 16) |||
        (resp.getD 2 0 <<< 8) ||| resp.getD 3 0), w)
    else (.error .proto, w)

/-- A bootloader command issued by `sbl_program_binary`, with its
arguments. -/
inductive Ev
  | sectorErase (addr : Nat)
  | getStatus
  | download (addr total : Nat)
  | sendData (chunk : List Nat)
  | reset
deriving DecidableEq, Repr

/-- The device as observed by `sbl_program_binary` through its helper
calls: `eraseOk k` is whether the `k`-th `sbl_sector_erase` call returns 0;
`statusRes k` is the outcome of the `k`-th `sbl_get_status` call (`none` a
transport failure, `some none` success with no status byte delivered — the
caller's `st` keeps its initialiser 0 — and `some (some s)` a delivered
status byte `s`); `downloadOk` and `sendOk k` likewise for `sbl_download`
and the `k`-th `sbl_send_data`. -/
structure Dev where
  eraseOk : Nat → Bool
  statusRes : Nat → Option (Option Nat)
  downloadOk : Bool
  sendOk : Nat → Bool

/-- The erase loop of `sbl_program_binary`:
`for (uint32_t a = base_addr; a < base_addr + erase_len; a += page_size)`,
issuing `sbl_sector_erase(fd, a, 5000)` then `sbl_get_status(fd, 1000, &st)`.
Only a transport failure of either call aborts (`false`); the status VALUE
is printed but never compared against 0x40. `fuel` bounds the number of
iterations (the callers pass `erase_len + 1`, enough whenever the loop
does not wrap); running out of fuel yields `none`, modelling a wrapping,
potentially non-terminating C loop. Returns the issued events, the
success flag, and the advanced per-command call counters. -/
def eraseGo (dev : Dev) (bound page_size : Nat) :
    Nat → Nat → Nat → Nat → Option (List Ev × Bool × Nat × Nat)
  | 0, _, _, _ => none
  | fuel + 1, a, nE, nS =>
    if a < bound then
      if dev.eraseOk nE then
        match dev.statusRes nS with
        | none => some ([.sectorErase a, .getStatus], false, nE + 1, nS + 1)
        | some _ =>
          match eraseGo dev bound page_size fuel ((a + page_size) % U32) (nE + 1) (nS + 1) with
          | none => none
          | some (tr, ok, nE2, nS2) =>
            some (.sectorErase a :: .getStatus :: tr, ok, nE2, nS2)
      else some ([.sectorErase a], false, nE + 1, nS)
    else some ([], true, nE, nS)

/-- `size_t chunk_len = total_len - off; if (chunk_len > 252) chunk_len = 252;`
from the transfer loop of `sbl_program_binary`. -/
def chunkLen (total off : Nat) : Nat :=
  if 252 < total - off then 252 else total - off

/-- `size_t copy_len = chunk_len; if (off + copy_len > image_len) copy_len
= image_len - off;` — the subtraction wraps modulo `2^64` exactly as the C
`size_t` subtraction would (the wrapping case is C undefined behaviour, an
out-of-bounds `memcpy`, and is unreachable from `sbl_program_binary`). -/
def copyLen (image_len off cl : Nat) : Nat :=
  if image_len < off + cl then (image_len + W64 - off) % W64 else cl

/-- The 252-byte chunk buffer of the transfer loop: the first `copy_len`
bytes copied from the image at `off`, the remainder padded with 0xFF. -/
def chunkBuf (image : List Nat) (off cl : Nat) : List Nat :=
  (image.drop off).take (copyLen image.length off cl) ++
    List.replicate (cl - copyLen image.length off cl) 0xFF

/-- The chunked transfer loop of `sbl_program_binary`: `size_t` offsets,
chunks of at most 252 bytes, `sbl_send_data` then `sbl_get_status`, with a
transport failure or a status different from 0x40 aborting. `fuel` as in
`eraseGo`; callers pass `total + 1`, which never runs out. -/
def sendGo (dev : Dev) (image : List Nat) (total : Nat) :
    Nat → Nat → Nat → Nat → Option (List Ev × Bool × Nat × Nat)
  | 0, _, _, _ => none
  | fuel + 1, off, nSend, nS =>
    if off < total then
      let buf := chunkBuf image off (chunkLen total off)
      if dev.sendOk nSend then
        match dev.statusRes nS with
        | none => some ([.sendData buf, .getStatus], false, nSend + 1, nS + 1)
        | some v =>
          if v.getD 0 ≠ 0x40 then
            some ([.sendData buf, .getStatus], false, nSend + 1, nS + 1)
          else
            match sendGo dev image total fuel (off + chunkLen total off) (nSend + 1) (nS + 1) with
            | none => none
            | some (tr, ok, n2, s2) =>
              some (.sendData buf :: .getStatus :: tr, ok, n2, s2)
      else some ([.sendData buf], false, nSend + 1, nS)
    else some ([], true, nSend, nS)

/-- Shallow embedding of `sbl_program_binary`, returning the C result
(`0` or `-1`) paired with the list of bootloader commands issued, or
`none` where the C function has no defined result (`page_size == 0`, or a
wrapping erase loop). -/
def sbl_program_binary (dev : Dev) (flash_size page_size : Nat)
    (image : List Nat) (base_addr : Nat) : Option (Int × List Ev) :=
  match sbl_plan flash_size page_size image.length base_addr with
  | none => none
  | some none => some (-1, [])
  | some (some erase_len) =>
    let bound := (base_addr + erase_len) % U32
    match eraseGo dev bound page_size (erase_len + 1) base_addr 0 0 with
    | none => none
    | some (trE, false, _, _) => some (-1, trE)
    | some (trE, true, _, nS) =>
      let total := total_len image.length
      let tr1 := trE ++ [.download base_addr total]
      if dev.downloadOk then
        let tr2 := tr1 ++ [.getStatus]
        match dev.statusRes nS with
        | none => some (-1, tr2)
        | some v =>
          if v.getD 0 ≠ 0x40 then some (-1, tr2)
          else
            match sendGo dev image total (total + 1) 0 0 (nS + 1) with
            | none => none
            | some (trS, false, _, _) => some (-1, tr2 ++ trS)
            | some (trS, true, _, _) => some (0, tr2 ++ trS ++ [.reset])
      else some (-1, tr1)

/-- Concatenation of the chunks of all `sendData` events of a trace, in
order: the bytes handed to the device by the transfer loop. -/
def sentBytes (tr : List Ev) : List Nat :=
  tr.foldr (fun e acc => match e with | .sendData c => c ++ acc | _ => acc) []

/-- Number of `sendData` events of a trace. -/
def sendCount (tr : List Ev) : Nat :=
  tr.countP fun e => match e with | .sendData _ => true | _ => false

/-- A device whose transport always works, that accepts every command, and
answers every `GET_STATUS` with `COMMAND_RET_SUCCESS` (0x40). -/
def perfectDev : Dev :=
  { eraseOk := fun _ => true
    statusRes := fun _ => some (some 0x40)
    downloadOk := true
    sendOk := fun _ => true }

/-- A device whose transport always works but that reports `FLASH_FAIL`
(0x44) to every `GET_STATUS`. -/
def flashFailDev : Dev :=
  { eraseOk := fun _ => true
    statusRes := fun _ => some (some 0x44)
    downloadOk := true
    sendOk := fun _ => true }

/-- A device whose transport fails on the second `sbl_sector_erase` call
and is otherwise successful. -/
def eraseFailDev : Dev :=
  { eraseOk := fun k => k == 0
    statusRes := fun _ => some (some 0x40)
    downloadOk := true
    sendOk := fun _ => true }

/-- Every `sectorErase` event of the trace is immediately followed by a
`getStatus` event, except possibly as the very last event (an aborted
`sbl_sector_erase` call ends the trace). -/
inductive Paired : List Ev → Prop
  | nil : Paired []
  | dangling (a : Nat) : Paired [Ev.sectorErase a]
  | pair (a : Nat) (tr : List Ev) : Paired tr →
      Paired (Ev.sectorErase a :: Ev.getStatus :: tr)
  | skip (e : Ev) (tr : List Ev) : (∀ a, e ≠ Ev.sectorErase a) → Paired tr →
      Paired (e :: tr)

/-- As `Paired`, but with no dangling final `sectorErase` allowed. -/
inductive PairedOK : List Ev → Prop
  | nil : PairedOK []
  | pair (a : Nat) (tr : List Ev) : PairedOK tr →
      PairedOK (Ev.sectorErase a :: Ev.getStatus :: tr)
  | skip (e : Ev) (tr : List Ev) : (∀ a, e ≠ Ev.sectorErase a) → PairedOK tr →
      PairedOK (e :: tr)

/-! ## Arithmetic helper lemmas -/

theorem U32_eq : U32 = 4294967296 := by norm_num [U32]

theorem W64_eq : W64 = 18446744073709551616 := by norm_num [W64]

theorem foldl_mod_add (l : List Nat) :
    ∀ s : Nat, l.foldl (fun s b => (s + b) % U32) s % U32 = (s + l.sum) % U32 := by
  induction l with
  | nil => intro s; simp
  | cons b l ih =>
    intro s
    simp only [List.foldl_cons, List.sum_cons]
    rw [ih, Nat.mod_add_mod]
    ring_nf

theorem checksum_sum_eq_sum_mod (l : List Nat) : checksum_sum l = l.sum % 256 := by
  have h255 : (0xFF : Nat) = 2 ^ 8 - 1 := by norm_num
  have h1 : checksum_sum l = l.foldl (fun s b => (s + b) % U32) 0 % 2 ^ 8 := by
    rw [checksum_sum, h255, Nat.and_pow_two_sub_one_eq_mod]
  have h2 : l.foldl (fun s b => (s + b) % U32) 0 % 2 ^ 8 =
      l.foldl (fun s b => (s + b) % U32) 0 % U32 % 2 ^ 8 := by
    rw [Nat.mod_mod_of_dvd]
    rw [U32_eq]; norm_num
  rw [h1, h2, foldl_mod_add]
  rw [Nat.mod_mod_of_dvd _ (by rw [U32_eq]; norm_num)]
  norm_num

theorem land_not_pow (k n : Nat) (hk : k < 32) (hn : n < U32) :
    n &&& (U32 - 2 ^ k) = n / 2 ^ k * 2 ^ k := by
  have h1 : U32 - 2 ^ k = (2 ^ (32 - k) - 1) <<< k := by
    rw [Nat.shiftLeft_eq, Nat.sub_one_mul, ← pow_add, U32]
    congr 2
    omega
  have h2 : n / 2 ^ k * 2 ^ k = (n >>> k) <<< k := by
    rw [Nat.shiftLeft_eq, Nat.shiftRight_eq_div_pow]
  rw [h1, h2]
  apply Nat.eq_of_testBit_eq
  intro j
  simp only [Nat.testBit_and, Nat.testBit_shiftLeft, Nat.testBit_shiftRight,
    Nat.testBit_two_pow_sub_one, ge_iff_le]
  by_cases hj : k ≤ j
  · have hkj : k + (j - k) = j := by omega
    rw [hkj]
    by_cases hj32 : j < 32
    · have : j - k < 32 - k := by omega
      simp [hj, this]
    · have hnj : n.testBit j = false := by
        apply Nat.testBit_lt_two_pow
        calc n < U32 := hn
        _ = 2 ^ 32 := rfl
        _ ≤ 2 ^ j := Nat.pow_le_pow_right (by norm_num) (by omega)
      simp [hnj]
  · simp [hj]

theorem erase_len_raw_pow (k il : Nat) (hk : k < 32) (hil : il + 2 ^ k ≤ U32) :
    erase_len_raw (2 ^ k) il = spec_round_up il (2 ^ k) := by
  have hk1 : 1 ≤ 2 ^ k := Nat.one_le_two_pow
  have hlt : il + 2 ^ k - 1 < U32 := by omega
  have hW : il + 2 ^ k - 1 < W64 := by
    have : U32 ≤ W64 := by rw [U32_eq, W64_eq]; norm_num
    omega
  have hm : (2 ^ k - 1) % U32 = 2 ^ k - 1 := Nat.mod_eq_of_lt (by omega)
  rw [erase_len_raw, not32, hm, Nat.mod_eq_of_lt hW]
  have hmask : U32 - 1 - (2 ^ k - 1) = U32 - 2 ^ k := by omega
  rw [hmask, land_not_pow k _ hk hlt]
  rfl

/-! ## C10, C3, and the erase-cap invariant -/

/-- C10: `sbl_program_binary` computes `base_addr % page_size`,
`flash_size - page_size` and the round-up mask with no guard against
`page_size == 0`: the preamble reaches the division-by-zero branch (no
defined result) exactly when `page_size = 0`, so the alignment check and
erase-length computation are well-defined only under the precondition
`page_size > 0`. -/
theorem sbl_plan_page_size_guard :
    (∀ fs il ba, sbl_plan fs 0 il ba = none)
  ∧ (∀ fs ps il ba, ps ≠ 0 → (sbl_plan fs ps il ba).isSome = true) := by
  constructor
  · intro fs il ba
    simp [sbl_plan]
  · intro fs ps il ba hps
    simp only [sbl_plan, if_neg hps]
    split <;> simp

/-- Witness for C10's second part at concrete arguments. -/
theorem sbl_plan_page_size_guard_witness :
    (0x1000 : Nat) ≠ 0 ∧ (sbl_plan 0x20000 0x1000 5 0).isSome = true :=
  ⟨by decide, sbl_plan_page_size_guard.2 0x20000 0x1000 5 0 (by decide)⟩

/-- C3 fails as stated: for `page_size = 3` (not a power of two, but
positive), `image_len = 1`, `base_addr = 0` (page-aligned), the code's
mask formula yields `erase_len = 1`, while `round_up(1, 3) = 3`. -/
theorem erase_len_round_up_cex :
    sbl_plan 0x20000 3 1 0 = some (some 1) ∧ spec_round_up 1 3 = 3 ∧ (1 : Nat) ≠ 3 := by
  refine ⟨?_, by decide, by decide⟩
  decide

/-- C3 (amended): when `page_size` is a power of two (and the quantities
are below `2^32`), the mask formula `(image_len + page_size - 1) &
~(page_size - 1)` equals `round_up(image_len, page_size)`, and the CCFG
cap is applied to it exactly as the claim states, in the program's
`uint32` arithmetic; in particular, for `flash_size = 0x20000`,
`page_size = 0x1000`, `image_len = 0x1500`, `base_addr = 0` the result is
`0x2000` (uncapped). For non-power-of-two page sizes the code computes
the mask formula, not `round_up`. -/
theorem erase_len_amended (fs ps il ba : Nat)
    (hpow : ∃ k, k < 32 ∧ ps = 2 ^ k) (hil : il + ps ≤ U32) :
    erase_len_raw ps il = spec_round_up il ps
  ∧ erase_len_capped fs ps il ba =
      (if last_page_start fs ps < (ba + spec_round_up il ps) % U32
       then (last_page_start fs ps + U32 - ba) % U32
       else spec_round_up il ps)
  ∧ erase_len_capped 0x20000 0x1000 0x1500 0 = 0x2000 := by
  obtain ⟨k, hk, rfl⟩ := hpow
  have h1 : erase_len_raw (2 ^ k) il = spec_round_up il (2 ^ k) :=
    erase_len_raw_pow k il hk hil
  refine ⟨h1, ?_, by decide⟩
  rw [erase_len_capped, h1]

/-- Witness for C3's amended theorem at the spec's concrete arguments. -/
theorem erase_len_amended_witness :
    (∃ k, k < 32 ∧ (0x1000 : Nat) = 2 ^ k) ∧ (0x1500 : Nat) + 0x1000 ≤ U32 ∧
    (erase_len_raw 0x1000 0x1500 = spec_round_up 0x1500 0x1000
      ∧ erase_len_capped 0x20000 0x1000 0x1500 0 =
          (if last_page_start 0x20000 0x1000 < (0 + spec_round_up 0x1500 0x1000) % U32
           then (last_page_start 0x20000 0x1000 + U32 - 0) % U32
           else spec_round_up 0x1500 0x1000)
      ∧ erase_len_capped 0x20000 0x1000 0x1500 0 = 0x2000) :=
  ⟨⟨12, by norm_num, by norm_num⟩, by rw [U32_eq]; norm_num,
    erase_len_amended 0x20000 0x1000 0x1500 0 ⟨12, by norm_num, by norm_num⟩
      (by rw [U32_eq]; norm_num)⟩

/-- The capped erase length always satisfies the ProgrammingPlan bound in
`uint32` arithmetic. -/
theorem erase_len_capped_le (fs ps il ba : Nat) (hba : ba < U32) :
    (ba + erase_len_capped fs ps il ba) % U32 ≤ last_page_start fs ps := by
  have hlps : last_page_start fs ps < U32 := by
    rw [last_page_start]
    exact Nat.mod_lt _ (by rw [U32_eq]; norm_num)
  rw [erase_len_capped]
  split
  · rw [U32_eq] at *
    omega
  · omega

/-! ## C5: characterisation of the ACK/NACK wait loop -/

theorem ack_ne_nack : SBL_ACK ≠ SBL_NACK := by decide

theorem nack_ne_ack : SBL_NACK ≠ SBL_ACK := by decide

theorem firstAt_cons (x : RxEv) (rest : List RxEv) (tgt : RxEv) :
    (∃ i, (x :: rest)[i]? = some tgt ∧ ∀ e ∈ (x :: rest).take i, ¬ sigEv e) ↔
      (x = tgt ∨ (¬ sigEv x ∧
        ∃ i, rest[i]? = some tgt ∧ ∀ e ∈ rest.take i, ¬ sigEv e)) := by
  constructor
  · rintro ⟨i, hi, hpre⟩
    cases i with
    | zero =>
      left
      simpa using hi
    | succ i =>
      right
      refine ⟨hpre x (by simp), i, by simpa using hi, fun e he => hpre e ?_⟩
      simp [he]
  · rintro (rfl | ⟨hx, i, hi, hpre⟩)
    · exact ⟨0, by simp, by simp⟩
    · refine ⟨i + 1, by simpa using hi, fun e he => ?_⟩
      rw [List.take_succ_cons, List.mem_cons] at he
      rcases he with rfl | he
      · exact hx
      · exact hpre e he

theorem ackScan_eq_ack (l : List RxEv) :
    ackScan l = .ack ↔
      ∃ i, l[i]? = some (.byte SBL_ACK) ∧ ∀ e ∈ l.take i, ¬ sigEv e := by
  induction l with
  | nil => simp [ackScan]
  | cons x rest ih =>
    rw [firstAt_cons]
    cases x with
    | err => simp [ackScan, sigEv]
    | nothing => simp [ackScan, sigEv, ih]
    | byte b =>
      by_cases hb : b = SBL_ACK
      · simp [ackScan, hb]
      · by_cases hb2 : b = SBL_NACK
        · simp [ackScan, sigEv, hb, hb2, nack_ne_ack]
        · simp [ackScan, sigEv, hb, hb2, ih]

theorem ackScan_eq_rejected (l : List RxEv) :
    ackScan l = .rejected ↔
      ∃ i, l[i]? = some (.byte SBL_NACK) ∧ ∀ e ∈ l.take i, ¬ sigEv e := by
  induction l with
  | nil => simp [ackScan]
  | cons x rest ih =>
    rw [firstAt_cons]
    cases x with
    | err => simp [ackScan, sigEv]
    | nothing => simp [ackScan, sigEv, ih]
    | byte b =>
      by_cases hb : b = SBL_ACK
      · simp [ackScan, sigEv, hb, ack_ne_nack]
      · by_cases hb2 : b = SBL_NACK
        · simp [ackScan, hb, hb2, nack_ne_ack]
        · simp [ackScan, sigEv, hb, hb2, ih]

theorem ackScan_eq_ioError (l : List RxEv) :
    ackScan l = .ioError ↔
      ∃ i, l[i]? = some .err ∧ ∀ e ∈ l.take i, ¬ sigEv e := by
  induction l with
  | nil => simp [ackScan]
  | cons x rest ih =>
    rw [firstAt_cons]
    cases x with
    | err => simp [ackScan, sigEv]
    | nothing => simp [ackScan, sigEv, ih]
    | byte b =>
      by_cases hb : b = SBL_ACK
      · simp [ackScan, sigEv, hb]
      · by_cases hb2 : b = SBL_NACK
        · simp [ackScan, sigEv, hb, hb2, nack_ne_ack]
        · simp [ackScan, sigEv, hb, hb2, ih]

theorem ackScan_eq_timeout (l : List RxEv) :
    ackScan l = .timeout ↔ ∀ e ∈ l, ¬ sigEv e := by
  induction l with
  | nil => simp [ackScan]
  | cons x rest ih =>
    cases x with
    | err => simp [ackScan, sigEv]
    | nothing => simp [ackScan, sigEv, ih]
    | byte b =>
      by_cases hb : b = SBL_ACK
      · simp [ackScan, sigEv, hb]
      · by_cases hb2 : b = SBL_NACK
        · simp [ackScan, sigEv, hb, hb2, nack_ne_ack]
        · simp [ackScan, sigEv, hb, hb2, ih]

theorem wait_go_scan (t : Nat) :
    ∀ d w evs, t - w ≤ d →
      (wait_ack_go evs w t).1 = ackScan (evs.take ((t - w + 19) / 20)) := by
  intro d
  induction d with
  | zero =>
    intro w evs h
    have hw : ¬ w < t := by omega
    have hS : (t - w + 19) / 20 = 0 := by omega
    rw [wait_ack_go.eq_def, hS]
    simp [hw, ackScan]
  | succ d ih =>
    intro w evs h
    by_cases hw : w < t
    · have hS : (t - w + 19) / 20 = (t - (w + 20) + 19) / 20 + 1 := by omega
      have hd : t - (w + 20) ≤ d := by omega
      rw [wait_ack_go.eq_def]
      cases evs with
      | nil =>
        simp only [if_pos hw]
        rw [ih (w + 20) [] hd]
        simp
      | cons x rest =>
        cases x with
        | err => simp [if_pos hw, hS, ackScan]
        | nothing =>
          simp only [if_pos hw]
          rw [ih (w + 20) rest hd, hS, List.take_succ_cons]
          simp [ackScan]
        | byte b =>
          by_cases hb : b = SBL_ACK
          · simp [if_pos hw, hb, hS, ackScan]
          · by_cases hb2 : b = SBL_NACK
            · simp [if_pos hw, hb, hb2, hS, ackScan, nack_ne_ack]
            · simp only [if_pos hw, if_neg hb, if_neg hb2]
              rw [ih (w + 20) rest hd, hS, List.take_succ_cons]
              simp [ackScan, hb, hb2]
    · have hS : (t - w + 19) / 20 = 0 := by omega
      rw [wait_ack_go.eq_def, hS]
      simp [hw, ackScan]

theorem firstSig_take (evs : List RxEv) (S : Nat) (tgt : RxEv) :
    (∃ i, (evs.take S)[i]? = some tgt ∧ ∀ e ∈ (evs.take S).take i, ¬ sigEv e) ↔
      (∃ i, i < S ∧ evs[i]? = some tgt ∧ ∀ e ∈ evs.take i, ¬ sigEv e) := by
  constructor
  · rintro ⟨i, hi, hpre⟩
    have hlen : i < (evs.take S).length := by
      by_contra hc
      rw [List.getElem?_eq_none (by omega)] at hi
      exact Option.noConfusion hi
    have hiS : i < S := by
      rw [List.length_take] at hlen
      omega
    refine ⟨i, hiS, ?_, fun e he => hpre e ?_⟩
    · rw [← List.getElem?_take_of_lt hiS]
      exact hi
    · rw [List.take_take, Nat.min_eq_left (le_of_lt hiS)]
      exact he
  · rintro ⟨i, hiS, hi, hpre⟩
    refine ⟨i, ?_, fun e he => hpre e ?_⟩
    · rw [List.getElem?_take_of_lt hiS]
      exact hi
    · rw [List.take_take, Nat.min_eq_left (le_of_lt hiS)] at he
      exact he

/-- C5: `sbl_wait_ack`, run against any sequence of per-read outcomes,
succeeds exactly when a 0xCC byte is delivered before any significant
event (0x33 or a transport error) and within the budget of
`⌈timeout_ms / 20⌉` poll slices; it is `rejected` exactly when 0x33 comes
first within the budget; a transport read error gives `ioError`
immediately; and it times out exactly when no significant event occurs
within the budget (all other bytes, e.g. 0x00, are discarded and do not
stretch nor reset the budget). -/
theorem sbl_wait_ack_characterization (evs : List RxEv) (t : Nat) :
    (sbl_wait_ack evs t = .ack ↔
       ∃ i, i < (t + 19) / 20 ∧ evs[i]? = some (.byte SBL_ACK) ∧
         ∀ e ∈ evs.take i, ¬ sigEv e)
  ∧ (sbl_wait_ack evs t = .rejected ↔
       ∃ i, i < (t + 19) / 20 ∧ evs[i]? = some (.byte SBL_NACK) ∧
         ∀ e ∈ evs.take i, ¬ sigEv e)
  ∧ (sbl_wait_ack evs t = .ioError ↔
       ∃ i, i < (t + 19) / 20 ∧ evs[i]? = some .err ∧
         ∀ e ∈ evs.take i, ¬ sigEv e)
  ∧ (sbl_wait_ack evs t = .timeout ↔
       ∀ e ∈ evs.take ((t + 19) / 20), ¬ sigEv e) := by
  have hL1 : sbl_wait_ack evs t = ackScan (evs.take ((t + 19) / 20)) := by
    have h := wait_go_scan t t 0 evs (by omega)
    rw [sbl_wait_ack, h, Nat.sub_zero]
  rw [hL1]
  exact ⟨(ackScan_eq_ack _).trans (firstSig_take _ _ _),
    (ackScan_eq_rejected _).trans (firstSig_take _ _ _),
    (ackScan_eq_ioError _).trans (firstSig_take _ _ _),
    ackScan_eq_timeout _⟩

/-! ## C6, C7, C8, C9: framing and the response path of `sbl_send_cmd` -/

theorem read_exact_bytes (l : List Nat) (rest : List RxEv) :
    read_exact (l.map RxEv.byte ++ rest) l.length = (.ok l, rest) := by
  induction l with
  | nil => simp [read_exact]
  | cons b l ih => simp [read_exact, ih]

theorem send_cmd_writes (data : List Nat) (wantOut : Bool) (out_max t : Nat)
    (evs : List RxEv) (h : ¬(data.length = 0 ∨ 253 < data.length)) :
    (sbl_send_cmd data wantOut out_max t evs).2 =
        [(data.length + 2) % 256 :: checksum_sum data :: data]
  ∨ (sbl_send_cmd data wantOut out_max t evs).2 =
        [(data.length + 2) % 256 :: checksum_sum data :: data, [0x00, SBL_ACK]] := by
  simp only [sbl_send_cmd, if_neg h]
  repeat' split
  all_goals simp

/-- C6: for every payload of length 1 to 253, `sbl_send_cmd` queues the
exact frame `[len(payload)+2, sum(payload) mod 256, payload...]` as its
first — single — transport write call; the only other write it can ever
issue is the 2-byte `[0x00, 0xCC]` acknowledgement of a device response
frame. The frame is never split across writes. -/
theorem send_cmd_single_frame_write (data : List Nat) (wantOut : Bool)
    (out_max t : Nat) (evs : List RxEv)
    (h1 : 1 ≤ data.length) (h2 : data.length ≤ 253) :
    ((sbl_send_cmd data wantOut out_max t evs).2).head? =
      some ((data.length + 2) :: (data.sum % 256) :: data)
  ∧ ∀ w ∈ ((sbl_send_cmd data wantOut out_max t evs).2).tail, w = [0x00, SBL_ACK] := by
  have h : ¬(data.length = 0 ∨ 253 < data.length) := by omega
  have hf : (data.length + 2) % 256 = data.length + 2 := Nat.mod_eq_of_lt (by omega)
  rcases send_cmd_writes data wantOut out_max t evs h with hw | hw <;>
    rw [hw] <;> simp [hf, checksum_sum_eq_sum_mod]

/-- Witness for C6 at a concrete payload and device behaviour. -/
theorem send_cmd_single_frame_write_witness :
    (1 ≤ ([0x20] : List Nat).length ∧ ([0x20] : List Nat).length ≤ 253) ∧
    (((sbl_send_cmd [0x20] false 0 1000 [.byte SBL_ACK]).2).head? =
        some ((([0x20] : List Nat).length + 2) :: (([0x20] : List Nat).sum % 256) :: [0x20])
      ∧ ∀ w ∈ ((sbl_send_cmd [0x20] false 0 1000 [.byte SBL_ACK]).2).tail,
          w = [0x00, SBL_ACK]) :=
  ⟨by decide, send_cmd_single_frame_write [0x20] false 0 1000 [.byte SBL_ACK]
    (by decide) (by decide)⟩

/-- C8: for a payload of length 0 or above 253, `sbl_send_cmd` fails with
`EINVAL` and issues no transport write at all. -/
theorem send_cmd_invalid_len (data : List Nat) (wantOut : Bool) (out_max t : Nat)
    (evs : List RxEv) (h : data.length = 0 ∨ 253 < data.length) :
    sbl_send_cmd data wantOut out_max t evs = (.error .inval, []) := by
  simp only [sbl_send_cmd, if_pos h]

/-- Witness for C8 at the empty payload. -/
theorem send_cmd_invalid_len_witness :
    (([] : List Nat).length = 0 ∨ 253 < ([] : List Nat).length) ∧
    sbl_send_cmd [] true 4 1000 [] = (.error .inval, []) :=
  ⟨by decide, send_cmd_invalid_len [] true 4 1000 [] (by decide)⟩

/-- C7 is false as stated: a response size byte of 0 is treated as "no
response" and `sbl_send_cmd` SUCCEEDS (with zero payload bytes), and a
size byte of 1 fails with `EMSGSIZE` (the wrapped `size_t` length
`(size_t)1 - 2` exceeds `out_max`), not with `EPROTO`; there is no
`size_byte < 2` check in the code. -/
theorem parse_size_lt_two_cex :
    (sbl_send_cmd [0x23] true 1 1000 [.byte SBL_ACK, .byte 0]).1 = .ok (0, [])
  ∧ (sbl_send_cmd [0x23] true 1 1000 [.byte SBL_ACK, .byte 1, .byte 0]).1 =
      .error .msgsize
  ∧ Err.msgsize ≠ Err.proto := by
  have hack : ∀ l : List RxEv, wait_ack_go (.byte SBL_ACK :: l) 0 1000 = (.ack, l) := by
    intro l
    rw [wait_ack_go.eq_def]
    norm_num
  refine ⟨?_, ?_, by decide⟩ <;>
    simp [sbl_send_cmd, hack, read_exact, W64_eq]

/-- C7 (amended): the response payload length is `size_byte - 2` computed
in `size_t` arithmetic. A size byte of 0 is treated as "command
acknowledged, no response" and the call succeeds with no payload; a size
byte of 1 wraps to the length `2^64 - 1`, which exceeds any `out_max`
below `2^64 - 1` and fails with `EMSGSIZE` (not `EPROTO`); for a size
byte `sz ≥ 2` exactly `sz - 2` payload bytes are read and returned. -/
theorem parse_size_amended (data : List Nat) (out_max t : Nat) (rest : List RxEv)
    (h1 : 1 ≤ data.length) (h2 : data.length ≤ 253) (ht : 0 < t)
    (hout : out_max ≠ 0) (hmax : out_max < W64 - 1) :
    (sbl_send_cmd data true out_max t (.byte SBL_ACK :: .byte 0 :: rest)).1 = .ok (0, [])
  ∧ (∀ c, (sbl_send_cmd data true out_max t
      (.byte SBL_ACK :: .byte 1 :: .byte c :: rest)).1 = .error .msgsize)
  ∧ (∀ sz payload, 2 ≤ sz → sz ≤ 255 → payload.length = sz - 2 →
      payload.length ≤ out_max →
      (sbl_send_cmd data true out_max t
        (.byte SBL_ACK :: .byte sz :: .byte (checksum_sum payload) ::
          (payload.map RxEv.byte ++ rest))).1 = .ok (sz - 2, payload)) := by
  have h : ¬(data.length = 0 ∨ 253 < data.length) := by omega
  have hnil : data ≠ [] := by
    intro hd
    subst hd
    simp at h1
  have hlt : ¬ 253 < data.length := by omega
  have hack : ∀ l : List RxEv, wait_ack_go (.byte SBL_ACK :: l) 0 t = (.ack, l) := by
    intro l
    rw [wait_ack_go.eq_def]
    simp [ht]
  refine ⟨?_, ?_, ?_⟩
  · simp [sbl_send_cmd, h, hnil, hlt, hack, read_exact, hout]
  · intro c
    have hlen : out_max < (1 + (W64 - 2)) % W64 := by
      rw [W64_eq] at *
      omega
    simp [sbl_send_cmd, h, hnil, hlt, hack, read_exact, hout, hlen]
  · intro sz payload hsz hsz2 hplen hpmax
    have hlen : (sz + (W64 - 2)) % W64 = sz - 2 := by
      rw [W64_eq] at *
      omega
    have hnmax : ¬ out_max < sz - 2 := by omega
    have hsz0 : sz ≠ 0 := by omega
    have e3 : read_exact (payload.map RxEv.byte ++ rest) (sz - 2) = (.ok payload, rest) := by
      rw [← hplen]
      exact read_exact_bytes payload rest
    simp [sbl_send_cmd, h, hnil, hlt, hack, read_exact, hout, hlen, hnmax, hsz0, e3]

/-- Witness for C7's amended theorem at a concrete command, `out_max` and
device stream. -/
theorem parse_size_amended_witness :
    (1 ≤ ([0x23] : List Nat).length ∧ ([0x23] : List Nat).length ≤ 253 ∧ (0 : Nat) < 1000
      ∧ (4 : Nat) ≠ 0 ∧ (4 : Nat) < W64 - 1) ∧
    ((sbl_send_cmd [0x23] true 4 1000 (.byte SBL_ACK :: .byte 0 :: [])).1 = .ok (0, [])
    ∧ (∀ c, (sbl_send_cmd [0x23] true 4 1000
        (.byte SBL_ACK :: .byte 1 :: .byte c :: [])).1 = .error .msgsize)
    ∧ (∀ sz payload, 2 ≤ sz → sz ≤ 255 → payload.length = sz - 2 →
        payload.length ≤ 4 →
        (sbl_send_cmd [0x23] true 4 1000
          (.byte SBL_ACK :: .byte sz :: .byte (checksum_sum payload) ::
            (payload.map RxEv.byte ++ []))).1 = .ok (sz - 2, payload))) :=
  ⟨⟨by decide, by decide, by decide, by decide, by decide⟩,
    parse_size_amended [0x23] 4 1000 [] (by decide) (by decide) (by decide)
      (by decide) (by decide)⟩

/-- Witness for C5 at a concrete device stream: a noise byte followed by
ACK yields success. -/
theorem sbl_wait_ack_characterization_witness :
    sbl_wait_ack [RxEv.byte 0x00, RxEv.byte SBL_ACK] 100 = AckRes.ack :=
  ((sbl_wait_ack_characterization [RxEv.byte 0x00, RxEv.byte SBL_ACK] 100).1).mpr
    ⟨1, by decide, by decide, by
      intro e he
      simp only [List.take_succ_cons, List.take_zero, List.mem_singleton] at he
      subst he
      simp [sigEv, SBL_ACK, SBL_NACK]⟩

/-- C9: `sbl_get_chip_id` decodes its 4-byte response little-endian while
`sbl_crc32` decodes its 4-byte response big-endian: for the response
payload `[0x01, 0x02, 0x03, 0x04]` (carried in a frame with size byte 6
and checksum 10), the former yields `0x04030201` and the latter
`0x01020304`. -/
theorem chip_id_le_crc32_be :
    (sbl_get_chip_id 1000
        [.byte SBL_ACK, .byte 6, .byte 10, .byte 1, .byte 2, .byte 3, .byte 4]).1
      = .ok (some 0x04030201)
  ∧ (sbl_crc32 0 0 0 1000
        [.byte SBL_ACK, .byte 6, .byte 10, .byte 1, .byte 2, .byte 3, .byte 4]).1
      = .ok 0x01020304 := by
  have hack : ∀ l : List RxEv, wait_ack_go (.byte SBL_ACK :: l) 0 1000 = (.ack, l) := by
    intro l
    rw [wait_ack_go.eq_def]
    norm_num
  have hcs : checksum_sum [1, 2, 3, 4] = 10 := by
    rw [checksum_sum_eq_sum_mod]
    norm_num
  constructor <;>
    simp [sbl_get_chip_id, sbl_crc32, sbl_send_cmd, hack, hcs, read_exact, be_byte,
      W64_eq, CMD_GET_CHIP_ID, CMD_CRC32]

/-! ## Trace structure lemmas for the programming orchestrator -/

theorem paired_of_pairedOK (tr : List Ev) (h : PairedOK tr) : Paired tr := by
  induction h with
  | nil => exact Paired.nil
  | pair a tr hp ih => exact Paired.pair a tr ih
  | skip e tr hne hp ih => exact Paired.skip e tr hne ih

theorem pairedOK_append (tr tr2 : List Ev) (h : PairedOK tr) (h2 : Paired tr2) :
    Paired (tr ++ tr2) := by
  induction h with
  | nil => simpa using h2
  | pair a tr' hp ih =>
    rw [List.cons_append, List.cons_append]
    exact Paired.pair a _ ih
  | skip e tr' hne hp ih =>
    rw [List.cons_append]
    exact Paired.skip e _ hne ih

theorem pairedOK_of_no_sectorErase (tr : List Ev)
    (h : ∀ e ∈ tr, ∀ a, e ≠ Ev.sectorErase a) : PairedOK tr := by
  induction tr with
  | nil => exact PairedOK.nil
  | cons e tr ih =>
    exact PairedOK.skip e tr (fun a => h e (by simp) a)
      (ih fun e2 he2 => h e2 (by simp [he2]))

theorem paired_index (tr : List Ev) (hp : Paired tr) :
    ∀ i a, tr[i]? = some (Ev.sectorErase a) →
      tr[i + 1]? = some Ev.getStatus ∨ tr.length = i + 1 := by
  induction hp with
  | nil =>
    intro i a h
    simp at h
  | dangling a2 =>
    intro i a h
    match i with
    | 0 => right; simp
    | i + 1 => simp at h
  | pair a2 tr2 hp ih =>
    intro i a h
    match i with
    | 0 => left; simp
    | 1 => simp at h
    | i + 2 =>
      rcases ih i a (by simpa using h) with h1 | h1
      · left
        simpa using h1
      · right
        simp [h1]
  | skip e tr2 hne hp ih =>
    intro i a h
    match i with
    | 0 =>
      have he : e = Ev.sectorErase a := by simpa using h
      exact absurd he (hne a)
    | i + 1 =>
      rcases ih i a (by simpa using h) with h1 | h1
      · left
        simpa using h1
      · right
        simp [h1]

theorem eraseGo_shape (dev : Dev) (bound ps : Nat) :
    ∀ fuel a nE nS tr ok nE2 nS2,
      eraseGo dev bound ps fuel a nE nS = some (tr, ok, nE2, nS2) →
      (∀ e ∈ tr, (∃ a2, e = Ev.sectorErase a2 ∧ a2 < bound) ∨ e = Ev.getStatus)
      ∧ (ok = true → PairedOK tr) ∧ (ok = false → Paired tr) := by
  intro fuel
  induction fuel with
  | zero =>
    intro a nE nS tr ok nE2 nS2 h
    simp [eraseGo] at h
  | succ fuel ih =>
    intro a nE nS tr ok nE2 nS2 h
    simp only [eraseGo] at h
    by_cases ha : a < bound
    · rw [if_pos ha] at h
      by_cases he : dev.eraseOk nE
      · rw [if_pos he] at h
        rcases hst : dev.statusRes nS with _ | v
        · rw [hst] at h
          simp only [Option.some.injEq, Prod.mk.injEq] at h
          obtain ⟨rfl, rfl, rfl, rfl⟩ := h
          refine ⟨?_, by simp, fun _ => Paired.pair a [] Paired.nil⟩
          intro e he2
          simp only [List.mem_cons, List.not_mem_nil, or_false] at he2
          rcases he2 with rfl | rfl
          · exact Or.inl ⟨a, rfl, ha⟩
          · exact Or.inr rfl
        · rw [hst] at h
          rcases hrec : eraseGo dev bound ps fuel ((a + ps) % U32) (nE + 1) (nS + 1)
            with _ | ⟨tr', ok', nE', nS'⟩
          · rw [hrec] at h
            simp at h
          · rw [hrec] at h
            simp only [Option.some.injEq, Prod.mk.injEq] at h
            obtain ⟨rfl, rfl, rfl, rfl⟩ := h
            obtain ⟨hsh, hok, hab⟩ := ih _ _ _ _ _ _ _ hrec
            refine ⟨?_, ?_, ?_⟩
            · intro e he2
              simp only [List.mem_cons] at he2
              rcases he2 with rfl | rfl | he2
              · exact Or.inl ⟨a, rfl, ha⟩
              · exact Or.inr rfl
              · exact hsh e he2
            · intro h1
              exact PairedOK.pair a tr' (hok h1)
            · intro h1
              exact Paired.pair a tr' (hab h1)
      · rw [if_neg he] at h
        simp only [Option.some.injEq, Prod.mk.injEq] at h
        obtain ⟨rfl, rfl, rfl, rfl⟩ := h
        refine ⟨?_, by simp, fun _ => Paired.dangling a⟩
        intro e he2
        simp only [List.mem_singleton] at he2
        subst he2
        exact Or.inl ⟨a, rfl, ha⟩
    · rw [if_neg ha] at h
      simp only [Option.some.injEq, Prod.mk.injEq] at h
      obtain ⟨rfl, rfl, rfl, rfl⟩ := h
      exact ⟨by simp, fun _ => PairedOK.nil, by simp⟩

theorem eraseGo_abort (dev : Dev) (bound ps : Nat) (hwrap : bound + ps ≤ U32) :
    ∀ k fuel a nE nS, k < fuel → a + k * ps < bound →
      (dev.eraseOk (nE + k) = false ∨ dev.statusRes (nS + k) = none) →
      (∀ j, j < k → dev.eraseOk (nE + j) = true ∧ dev.statusRes (nS + j) ≠ none) →
      ∃ tr nE2 nS2, eraseGo dev bound ps fuel a nE nS = some (tr, false, nE2, nS2) := by
  intro k
  induction k with
  | zero =>
    intro fuel a nE nS hfuel ha hfail _
    obtain ⟨fuel, rfl⟩ : ∃ f, fuel = f + 1 := ⟨fuel - 1, by omega⟩
    have ha' : a < bound := by omega
    rcases hfail with hf | hf
    · rw [Nat.add_zero] at hf
      refine ⟨[Ev.sectorErase a], nE + 1, nS, ?_⟩
      simp [eraseGo, if_pos ha', hf]
    · rw [Nat.add_zero] at hf
      by_cases he : dev.eraseOk nE
      · refine ⟨[Ev.sectorErase a, Ev.getStatus], nE + 1, nS + 1, ?_⟩
        simp [eraseGo, if_pos ha', he, hf]
      · refine ⟨[Ev.sectorErase a], nE + 1, nS, ?_⟩
        simp [eraseGo, if_pos ha', he]
  | succ k ih =>
    intro fuel a nE nS hfuel ha hfail hclean
    obtain ⟨fuel, rfl⟩ : ∃ f, fuel = f + 1 := ⟨fuel - 1, by omega⟩
    have ha' : a < bound := by
      have : k * ps ≤ (k + 1) * ps := Nat.mul_le_mul_right ps (by omega)
      omega
    have h0 := hclean 0 (by omega)
    obtain ⟨v, hv⟩ := Option.ne_none_iff_exists'.mp h0.2
    have hmod : (a + ps) % U32 = a + ps := Nat.mod_eq_of_lt (by omega)
    have hrec := ih fuel (a + ps) (nE + 1) (nS + 1) (by omega)
      (by have hmul : (k + 1) * ps = k * ps + ps := by ring
          omega)
      (by rcases hfail with hf | hf
          · left
            rw [show nE + 1 + k = nE + (k + 1) by omega]
            exact hf
          · right
            rw [show nS + 1 + k = nS + (k + 1) by omega]
            exact hf)
      (by intro j hj
          have := hclean (j + 1) (by omega)
          rw [show nE + (j + 1) = nE + 1 + j by omega,
            show nS + (j + 1) = nS + 1 + j by omega] at this
          exact this)
    obtain ⟨tr, nE2, nS2, htr⟩ := hrec
    have h0e : dev.eraseOk nE = true := by simpa using h0.1
    have hv' : dev.statusRes nS = some v := by simpa using hv
    simp only [eraseGo, if_pos ha', if_pos h0e, hv', hmod, htr]
    exact ⟨_, _, _, rfl⟩

theorem eraseGo_complete (dev : Dev) (bound ps : Nat) (hps : 0 < ps)
    (hwrap : bound + ps ≤ U32)
    (hclean : ∀ j, dev.eraseOk j = true ∧ dev.statusRes j ≠ none) :
    ∀ fuel a nE nS, bound - a < fuel →
      ∃ tr nE2 nS2, eraseGo dev bound ps fuel a nE nS = some (tr, true, nE2, nS2) := by
  intro fuel
  induction fuel with
  | zero =>
    intro a nE nS h
    omega
  | succ fuel ih =>
    intro a nE nS h
    by_cases ha : a < bound
    · obtain ⟨v, hv⟩ := Option.ne_none_iff_exists'.mp (hclean nS).2
      have hmod : (a + ps) % U32 = a + ps := Nat.mod_eq_of_lt (by omega)
      obtain ⟨tr, nE2, nS2, htr⟩ := ih (a + ps) (nE + 1) (nS + 1) (by omega)
      simp only [eraseGo, if_pos ha, if_pos (hclean nE).1, hv, hmod, htr]
      exact ⟨_, _, _, rfl⟩
    · simp only [eraseGo, if_neg ha]
      exact ⟨_, _, _, rfl⟩

/-! ## Transfer-loop lemmas -/

theorem sentBytes_foldr (tr : List Ev) :
    ∀ acc, tr.foldr (fun e acc => match e with | Ev.sendData c => c ++ acc | _ => acc) acc
      = sentBytes tr ++ acc := by
  induction tr with
  | nil =>
    intro acc
    rfl
  | cons e tr ih =>
    intro acc
    rw [List.foldr_cons, ih]
    cases e with
    | sendData c =>
      show c ++ (sentBytes tr ++ acc) = sentBytes (Ev.sendData c :: tr) ++ acc
      rw [← List.append_assoc]
      rfl
    | sectorErase a => rfl
    | getStatus => rfl
    | download a t => rfl
    | reset => rfl

theorem sentBytes_append (l1 l2 : List Ev) :
    sentBytes (l1 ++ l2) = sentBytes l1 ++ sentBytes l2 := by
  rw [sentBytes, List.foldr_append, sentBytes_foldr]
  rfl

theorem sentBytes_eq_nil (tr : List Ev)
    (h : ∀ e ∈ tr, ∀ c, e ≠ Ev.sendData c) : sentBytes tr = [] := by
  induction tr with
  | nil => rfl
  | cons e tr ih =>
    have ht : sentBytes tr = [] := ih fun e2 he2 => h e2 (by simp [he2])
    cases e with
    | sendData c => exact absurd rfl (h (Ev.sendData c) (by simp) c)
    | _ => simpa [sentBytes] using ht

theorem sendCount_append (l1 l2 : List Ev) :
    sendCount (l1 ++ l2) = sendCount l1 + sendCount l2 := by
  simp [sendCount, List.countP_append]

theorem sendCount_eq_zero (tr : List Ev)
    (h : ∀ e ∈ tr, ∀ c, e ≠ Ev.sendData c) : sendCount tr = 0 := by
  rw [sendCount, List.countP_eq_zero]
  intro e he
  cases e with
  | sendData c => exact absurd rfl (h (Ev.sendData c) he c)
  | _ => simp

theorem chunkLen_pos (total off : Nat) (h : off < total) : 1 ≤ chunkLen total off := by
  rw [chunkLen]
  split <;> omega

theorem chunkLen_le (total off : Nat) : chunkLen total off ≤ total - off := by
  rw [chunkLen]
  split <;> omega

theorem chunkLen_le_252 (total off : Nat) : chunkLen total off ≤ 252 := by
  rw [chunkLen]
  split <;> omega

theorem copyLen_eq (il off cl : Nat) (hoff : off ≤ il) (hW : il < W64) :
    copyLen il off cl = if il < off + cl then il - off else cl := by
  rw [copyLen]
  split
  · rw [W64_eq] at *
    omega
  · rfl

theorem chunkBuf_take (image : List Nat) (total off cl : Nat)
    (hoff : off ≤ image.length) (hcl : cl ≤ total - off)
    (htot : image.length ≤ total) (hW : image.length < W64) :
    chunkBuf image off cl =
      ((image ++ List.replicate (total - image.length) 0xFF).drop off).take cl := by
  have hdrop : (image ++ List.replicate (total - image.length) 0xFF).drop off
      = image.drop off ++ List.replicate (total - image.length) 0xFF :=
    List.drop_append_of_le_length hoff
  have hlen : (image.drop off).length = image.length - off := by simp
  rw [chunkBuf, copyLen_eq _ _ _ hoff hW, hdrop]
  by_cases hc : image.length < off + cl
  · rw [if_pos hc, List.take_append_eq_append_take, hlen]
    rw [List.take_of_length_le (by omega), List.take_of_length_le (by omega)]
    rw [List.take_replicate]
    rw [Nat.min_eq_left (by omega)]
  · rw [if_neg hc, List.take_append_of_le_length (by omega)]
    simp

theorem sendGo_shape (dev : Dev) (image : List Nat) (total : Nat) :
    ∀ fuel off nSend nS tr ok n2 s2,
      sendGo dev image total fuel off nSend nS = some (tr, ok, n2, s2) →
      ∀ e ∈ tr, (∃ c, e = Ev.sendData c) ∨ e = Ev.getStatus := by
  intro fuel
  induction fuel with
  | zero =>
    intro off nSend nS tr ok n2 s2 h
    simp [sendGo] at h
  | succ fuel ih =>
    intro off nSend nS tr ok n2 s2 h
    simp only [sendGo] at h
    by_cases ho : off < total
    · rw [if_pos ho] at h
      by_cases hs : dev.sendOk nSend
      · rw [if_pos hs] at h
        rcases hst : dev.statusRes nS with _ | v
        · rw [hst] at h
          simp only [Option.some.injEq, Prod.mk.injEq] at h
          obtain ⟨rfl, rfl, rfl, rfl⟩ := h
          intro e he
          simp only [List.mem_cons, List.not_mem_nil, or_false] at he
          rcases he with rfl | rfl
          · exact Or.inl ⟨_, rfl⟩
          · exact Or.inr rfl
        · rw [hst] at h
          by_cases hv : v.getD 0 ≠ 0x40
          · simp only [if_pos hv] at h
            simp only [Option.some.injEq, Prod.mk.injEq] at h
            obtain ⟨rfl, rfl, rfl, rfl⟩ := h
            intro e he
            simp only [List.mem_cons, List.not_mem_nil, or_false] at he
            rcases he with rfl | rfl
            · exact Or.inl ⟨_, rfl⟩
            · exact Or.inr rfl
          · simp only [if_neg hv] at h
            rcases hrec : sendGo dev image total fuel (off + chunkLen total off)
                (nSend + 1) (nS + 1) with _ | ⟨tr', ok', a2, b2⟩
            · rw [hrec] at h
              simp at h
            · rw [hrec] at h
              simp only [Option.some.injEq, Prod.mk.injEq] at h
              obtain ⟨rfl, rfl, rfl, rfl⟩ := h
              intro e he
              simp only [List.mem_cons] at he
              rcases he with rfl | rfl | he
              · exact Or.inl ⟨_, rfl⟩
              · exact Or.inr rfl
              · exact ih _ _ _ _ _ _ _ hrec e he
      · rw [if_neg hs] at h
        simp only [Option.some.injEq, Prod.mk.injEq] at h
        obtain ⟨rfl, rfl, rfl, rfl⟩ := h
        intro e he
        simp only [List.mem_singleton] at he
        subst he
        exact Or.inl ⟨_, rfl⟩
    · rw [if_neg ho] at h
      simp only [Option.some.injEq, Prod.mk.injEq] at h
      obtain ⟨rfl, rfl, rfl, rfl⟩ := h
      intro e he
      simp at he

theorem sendGo_isSome (dev : Dev) (image : List Nat) (total : Nat) :
    ∀ fuel off nSend nS, total - off < fuel →
      (sendGo dev image total fuel off nSend nS).isSome = true := by
  intro fuel
  induction fuel with
  | zero =>
    intro off nSend nS h
    omega
  | succ fuel ih =>
    intro off nSend nS h
    simp only [sendGo]
    by_cases ho : off < total
    · rw [if_pos ho]
      by_cases hs : dev.sendOk nSend
      · rw [if_pos hs]
        rcases hst : dev.statusRes nS with _ | v
        · simp
        · by_cases hv : v.getD 0 ≠ 0x40
          · simp [hv]
          · simp only [if_neg hv]
            have hcl := chunkLen_pos total off ho
            have := ih (off + chunkLen total off) (nSend + 1) (nS + 1) (by omega)
            rcases hrec : sendGo dev image total fuel (off + chunkLen total off)
                (nSend + 1) (nS + 1) with _ | ⟨tr', ok', a2, b2⟩
            · rw [hrec] at this
              simp at this
            · simp [hrec]
      · rw [if_neg hs]
        simp
    · rw [if_neg ho]
      simp

theorem sendGo_perfect (dev : Dev) (image : List Nat) (total : Nat)
    (hsend : ∀ k, dev.sendOk k = true)
    (hstat : ∀ k, dev.statusRes k = some (some 0x40))
    (hil : image.length ≤ total) (h3 : total ≤ image.length + 3) (h4 : 4 ∣ total)
    (hW : image.length < W64) :
    ∀ fuel off nSend nS, total - off < fuel → 4 ∣ off → off ≤ total →
      ∃ tr n2 s2, sendGo dev image total fuel off nSend nS = some (tr, true, n2, s2)
        ∧ sentBytes tr = (image ++ List.replicate (total - image.length) 0xFF).drop off
        ∧ sendCount tr = (total - off + 251) / 252
        ∧ (∀ c, Ev.sendData c ∈ tr → 1 ≤ c.length ∧ c.length ≤ 252) := by
  intro fuel
  induction fuel with
  | zero =>
    intro off nSend nS h _ _
    omega
  | succ fuel ih =>
    intro off nSend nS hf hdvd hle
    by_cases ho : off < total
    · have hcl1 : 1 ≤ chunkLen total off := chunkLen_pos total off ho
      have hcl2 : chunkLen total off ≤ total - off := chunkLen_le total off
      have hcl3 : chunkLen total off ≤ 252 := chunkLen_le_252 total off
      have hoffil : off ≤ image.length := by
        rcases hdvd with ⟨q, rfl⟩
        rcases h4 with ⟨p, hp⟩
        omega
      have hbuf : chunkBuf image off (chunkLen total off) =
          ((image ++ List.replicate (total - image.length) 0xFF).drop off).take
            (chunkLen total off) :=
        chunkBuf_take image total off (chunkLen total off) hoffil hcl2 hil hW
      have hdvd2 : 4 ∣ (off + chunkLen total off) := by
        rw [chunkLen]
        split
        · rcases hdvd with ⟨q, rfl⟩
          exact ⟨q + 63, by ring⟩
        · have hofft : off + (total - off) = total := by omega
          rw [hofft]
          exact h4
      obtain ⟨tr, n2, s2, htr, hsb, hsc, hcb⟩ :=
        ih (off + chunkLen total off) (nSend + 1) (nS + 1) (by omega) hdvd2 (by omega)
      refine ⟨Ev.sendData (chunkBuf image off (chunkLen total off)) :: Ev.getStatus :: tr,
        n2, s2, ?_, ?_, ?_, ?_⟩
      · simp only [sendGo, if_pos ho, hsend nSend, hstat nS, if_true, Option.getD_some,
          htr]
        norm_num
      · rw [show sentBytes (Ev.sendData (chunkBuf image off (chunkLen total off)) ::
            Ev.getStatus :: tr) = chunkBuf image off (chunkLen total off) ++ sentBytes tr
            from rfl]
        rw [hsb, hbuf, ← List.drop_drop]
        exact List.take_append_drop _ _
      · have hc2 : sendCount (Ev.sendData (chunkBuf image off (chunkLen total off)) ::
            Ev.getStatus :: tr) = sendCount tr + 1 := by
          simp [sendCount, List.countP_cons]
        rw [hc2, hsc]
        simp only [chunkLen]
        split <;> omega
      · intro c hc
        simp only [List.mem_cons] at hc
        rcases hc with hc | hc | hc
        · have : c = chunkBuf image off (chunkLen total off) := by
            injection hc
          subst this
          rw [hbuf]
          constructor
          · rw [List.length_take]
            have hplen : (image ++ List.replicate (total - image.length) 0xFF).length
                = total := by
              simp
              omega
            have : ((image ++ List.replicate (total - image.length) 0xFF).drop off).length
                = total - off := by
              simp [hplen]
            omega
          · rw [List.length_take]
            omega
        · exact absurd hc (by simp)
        · exact hcb c hc
    · have hofft : off = total := by omega
      refine ⟨[], nSend, nS, ?_, ?_, ?_, ?_⟩
      · simp [sendGo, ho]
      · have hplen : (image ++ List.replicate (total - image.length) 0xFF).length
            = total := by
          simp
          omega
        rw [hofft, List.drop_of_length_le (by omega)]
        rfl
      · rw [hofft]
        rw [show sendCount ([] : List Ev) = 0 from rfl]
        omega
      · intro c hc
        simp at hc

/-! ## Decomposition of the programming workflow -/

theorem program_binary_eq (dev : Dev) (fs ps : Nat) (image : List Nat) (ba : Nat)
    (hps : ps ≠ 0) (hal : ba % ps = 0) :
    sbl_program_binary dev fs ps image ba =
      (match eraseGo dev ((ba + erase_len_capped fs ps image.length ba) % U32) ps
          (erase_len_capped fs ps image.length ba + 1) ba 0 0 with
       | none => none
       | some (trE, false, _, _) => some (-1, trE)
       | some (trE, true, _, nS) =>
         if dev.downloadOk then
           match dev.statusRes nS with
           | none => some (-1,
               (trE ++ [Ev.download ba (total_len image.length)]) ++ [Ev.getStatus])
           | some v =>
             if v.getD 0 ≠ 0x40 then
               some (-1,
                 (trE ++ [Ev.download ba (total_len image.length)]) ++ [Ev.getStatus])
             else
               match sendGo dev image (total_len image.length)
                   (total_len image.length + 1) 0 0 (nS + 1) with
               | none => none
               | some (trS, false, _, _) => some (-1,
                   ((trE ++ [Ev.download ba (total_len image.length)]) ++ [Ev.getStatus])
                     ++ trS)
               | some (trS, true, _, _) => some (0,
                   (((trE ++ [Ev.download ba (total_len image.length)]) ++ [Ev.getStatus])
                     ++ trS) ++ [Ev.reset])
         else some (-1, trE ++ [Ev.download ba (total_len image.length)])) := by
  have hplan : sbl_plan fs ps image.length ba
      = some (some (erase_len_capped fs ps image.length ba)) := by
    rw [sbl_plan, if_neg hps, if_neg (by simp [hal])]
  simp only [sbl_program_binary, hplan]

theorem sectorErase_mem_append_left (a : Nat) (tr1 tr2 : List Ev)
    (h : Ev.sectorErase a ∈ tr1 ++ tr2)
    (h2 : ∀ e ∈ tr2, ∀ a2, e ≠ Ev.sectorErase a2) : Ev.sectorErase a ∈ tr1 := by
  rcases List.mem_append.mp h with h | h
  · exact h
  · exact absurd rfl (h2 _ h a)

theorem sendGo_no_sectorErase (dev : Dev) (image : List Nat) (total : Nat)
    (fuel off nSend nS : Nat) (tr : List Ev) (ok : Bool) (n2 s2 : Nat)
    (h : sendGo dev image total fuel off nSend nS = some (tr, ok, n2, s2)) :
    ∀ e ∈ tr, ∀ a, e ≠ Ev.sectorErase a := by
  intro e he a
  rcases sendGo_shape dev image total fuel off nSend nS tr ok n2 s2 h e he with ⟨c, rfl⟩ | rfl <;>
    simp

/-- C4: on every input that passes the alignment check, the erase length
computed at the start of `sbl_program_binary` satisfies the
ProgrammingPlan invariant `base_addr + erase_len <= flash_size - page_size`
in the program's `uint32` arithmetic, and consequently every address the
erase loop passes to `sector_erase` is strictly below the final flash
page's start, for every device behaviour. -/
theorem program_binary_cap_invariant (dev : Dev) (fs ps ba : Nat) (image : List Nat)
    (hps : ps ≠ 0) (hal : ba % ps = 0) (hba : ba < U32) :
    (ba + erase_len_capped fs ps image.length ba) % U32 ≤ last_page_start fs ps
  ∧ ∀ r tr a, sbl_program_binary dev fs ps image ba = some (r, tr) →
      Ev.sectorErase a ∈ tr → a < last_page_start fs ps := by
  have h1 := erase_len_capped_le fs ps image.length ba hba
  refine ⟨h1, ?_⟩
  intro r tr a hrun hmem
  rw [program_binary_eq dev fs ps image ba hps hal] at hrun
  rcases hE : eraseGo dev ((ba + erase_len_capped fs ps image.length ba) % U32) ps
      (erase_len_capped fs ps image.length ba + 1) ba 0 0 with _ | ⟨trE, ok, nE2, nS2⟩
  · rw [hE] at hrun
    simp at hrun
  · rw [hE] at hrun
    have hshape := (eraseGo_shape dev _ ps _ ba 0 0 trE ok nE2 nS2 hE).1
    have hEa : Ev.sectorErase a ∈ trE → a < last_page_start fs ps := by
      intro hm
      rcases hshape _ hm with ⟨a3, he, hlt⟩ | he
      · have : a = a3 := by injection he
        subst this
        exact lt_of_lt_of_le hlt h1
      · simp at he
    have hdl2 : ∀ e ∈ [Ev.download ba (total_len image.length)], ∀ a2,
        e ≠ Ev.sectorErase a2 := by
      intro e he a2
      simp only [List.mem_singleton] at he
      subst he
      simp
    have hgs2 : ∀ e ∈ [Ev.getStatus], ∀ a2, e ≠ Ev.sectorErase a2 := by
      intro e he a2
      simp only [List.mem_singleton] at he
      subst he
      simp
    have hrs2 : ∀ e ∈ [Ev.reset], ∀ a2, e ≠ Ev.sectorErase a2 := by
      intro e he a2
      simp only [List.mem_singleton] at he
      subst he
      simp
    cases ok with
    | false =>
      simp only [Option.some.injEq, Prod.mk.injEq] at hrun
      obtain ⟨-, rfl⟩ := hrun
      exact hEa hmem
    | true =>
      by_cases hdl : dev.downloadOk
      · simp only [if_pos hdl] at hrun
        rcases hst : dev.statusRes nS2 with _ | v
        · rw [hst] at hrun
          simp only [Option.some.injEq, Prod.mk.injEq] at hrun
          obtain ⟨-, rfl⟩ := hrun
          exact hEa (sectorErase_mem_append_left a _ _
            (sectorErase_mem_append_left a _ _ hmem hgs2) hdl2)
        · rw [hst] at hrun
          by_cases hv : v.getD 0 ≠ 0x40
          · simp only [if_pos hv, Option.some.injEq, Prod.mk.injEq] at hrun
            obtain ⟨-, rfl⟩ := hrun
            exact hEa (sectorErase_mem_append_left a _ _
              (sectorErase_mem_append_left a _ _ hmem hgs2) hdl2)
          · simp only [if_neg hv] at hrun
            rcases hS : sendGo dev image (total_len image.length)
                (total_len image.length + 1) 0 0 (nS2 + 1) with _ | ⟨trS, okS, x2, y2⟩
            · rw [hS] at hrun
              simp at hrun
            · rw [hS] at hrun
              have hSno := sendGo_no_sectorErase dev image _ _ _ _ _ trS okS x2 y2 hS
              cases okS with
              | false =>
                simp only [Option.some.injEq, Prod.mk.injEq] at hrun
                obtain ⟨-, rfl⟩ := hrun
                exact hEa (sectorErase_mem_append_left a _ _
                  (sectorErase_mem_append_left a _ _
                    (sectorErase_mem_append_left a _ _ hmem hSno) hgs2) hdl2)
              | true =>
                simp only [Option.some.injEq, Prod.mk.injEq] at hrun
                obtain ⟨-, rfl⟩ := hrun
                exact hEa (sectorErase_mem_append_left a _ _
                  (sectorErase_mem_append_left a _ _
                    (sectorErase_mem_append_left a _ _
                      (sectorErase_mem_append_left a _ _ hmem hrs2) hSno) hgs2) hdl2)
      · simp only [if_neg hdl] at hrun
        simp only [Option.some.injEq, Prod.mk.injEq] at hrun
        obtain ⟨-, rfl⟩ := hrun
        exact hEa (sectorErase_mem_append_left a _ _ hmem hdl2)

/-- Witness for C4 at the spec's concrete plan parameters, run against the
always-successful device. -/
theorem program_binary_cap_invariant_witness :
    ((0x1000 : Nat) ≠ 0 ∧ (0 : Nat) % 0x1000 = 0 ∧ (0 : Nat) < U32) ∧
    ((0 + erase_len_capped 0x20000 0x1000 (List.replicate 0x1500 0).length 0) % U32
        ≤ last_page_start 0x20000 0x1000
      ∧ ∀ r tr a, sbl_program_binary perfectDev 0x20000 0x1000 (List.replicate 0x1500 0) 0
            = some (r, tr) →
          Ev.sectorErase a ∈ tr → a < last_page_start 0x20000 0x1000) :=
  ⟨⟨by decide, by decide, by decide⟩,
    program_binary_cap_invariant perfectDev 0x20000 0x1000 0 (List.replicate 0x1500 0)
      (by decide) (by decide) (by decide)⟩

/-- C2: `total_len` is `image_len` rounded up to a 4-byte boundary, and —
against a device that accepts everything with status 0x40 — the transfer
loop of `sbl_program_binary` sends exactly `total_len` bytes in
`send_data` chunks of 1 to 252 bytes: the concatenation of the sent
chunks is the image followed by `total_len - image_len` bytes of 0xFF
padding (so byte `i < image_len` equals `image[i]` and every byte from
`image_len` up to `total_len` is 0xFF), the number of `send_data` calls
is `⌈total_len / 252⌉`, and in particular an image of 517 bytes is sent
in exactly 3 calls. -/
theorem program_binary_chunking (image : List Nat) (fs ps ba : Nat)
    (hps : ps ≠ 0) (hal : ba % ps = 0)
    (hU : ba + erase_len_capped fs ps image.length ba + ps ≤ U32)
    (hW : image.length + 4 ≤ W64) :
    total_len image.length = (image.length + 3) / 4 * 4
  ∧ ∃ tr, sbl_program_binary perfectDev fs ps image ba = some (0, tr)
      ∧ sentBytes tr = image ++
          List.replicate (total_len image.length - image.length) 0xFF
      ∧ (sentBytes tr).length = total_len image.length
      ∧ (∀ c, Ev.sendData c ∈ tr → 1 ≤ c.length ∧ c.length ≤ 252)
      ∧ sendCount tr = (total_len image.length + 251) / 252
      ∧ (image.length = 517 → sendCount tr = 3) := by
  have htl : total_len image.length = (image.length + 3) / 4 * 4 := by
    rw [total_len]
    split
    · rw [Nat.mod_eq_of_lt (by rw [W64_eq] at *; omega)]
      omega
    · omega
  have hil_le : image.length ≤ total_len image.length := by
    rw [htl]
    omega
  have h3 : total_len image.length ≤ image.length + 3 := by
    rw [htl]
    omega
  have h4 : 4 ∣ total_len image.length := by
    rw [htl]
    exact ⟨(image.length + 3) / 4, by ring⟩
  have hbound : (ba + erase_len_capped fs ps image.length ba) % U32
      = ba + erase_len_capped fs ps image.length ba :=
    Nat.mod_eq_of_lt (by omega)
  obtain ⟨trE, nE2, nS2, hE⟩ :=
    eraseGo_complete perfectDev (ba + erase_len_capped fs ps image.length ba) ps
      (by omega) (by omega) (by intro j; simp [perfectDev])
      (erase_len_capped fs ps image.length ba + 1) ba 0 0 (by omega)
  obtain ⟨trS, n2, s2, hS, hsb, hsc, hcb⟩ :=
    sendGo_perfect perfectDev image (total_len image.length)
      (by intro k; simp [perfectDev]) (by intro k; simp [perfectDev])
      hil_le h3 h4 (by rw [W64_eq] at *; omega)
      (total_len image.length + 1) 0 0 (nS2 + 1) (by omega) ⟨0, rfl⟩ (by omega)
  have hEshape := (eraseGo_shape perfectDev _ ps _ ba 0 0 trE true nE2 nS2 hE).1
  have hEnosend : ∀ e ∈ trE, ∀ c, e ≠ Ev.sendData c := by
    intro e he c
    rcases hEshape e he with ⟨a2, rfl, -⟩ | rfl <;> simp
  have hrun : sbl_program_binary perfectDev fs ps image ba
      = some (0, (((trE ++ [Ev.download ba (total_len image.length)]) ++ [Ev.getStatus])
          ++ trS) ++ [Ev.reset]) := by
    rw [program_binary_eq perfectDev fs ps image ba hps hal, hbound, hE]
    have hds : perfectDev.downloadOk = true := rfl
    have hss : perfectDev.statusRes nS2 = some (some 0x40) := rfl
    simp [hds, hss, hS]
  refine ⟨htl, _, hrun, ?_, ?_, ?_, ?_, ?_⟩
  · rw [sentBytes_append, sentBytes_append, sentBytes_append, sentBytes_append]
    rw [sentBytes_eq_nil trE hEnosend, hsb, List.drop_zero]
    simp [sentBytes]
  · rw [sentBytes_append, sentBytes_append, sentBytes_append, sentBytes_append]
    rw [sentBytes_eq_nil trE hEnosend, hsb, List.drop_zero]
    simp [sentBytes]
    omega
  · intro c hc
    simp only [List.mem_append, List.mem_singleton] at hc
    rcases hc with (((hc | hc) | hc) | hc) | hc
    · exact absurd rfl (hEnosend _ hc c)
    · simp at hc
    · simp at hc
    · exact hcb c hc
    · simp at hc
  · rw [sendCount_append, sendCount_append, sendCount_append, sendCount_append]
    rw [sendCount_eq_zero trE hEnosend, hsc]
    simp [sendCount]
  · intro h517
    rw [sendCount_append, sendCount_append, sendCount_append, sendCount_append]
    rw [sendCount_eq_zero trE hEnosend, hsc, htl, h517]
    simp [sendCount]

/-- Witness for C2 at a concrete 517-byte image and the spec's concrete
plan parameters. -/
theorem program_binary_chunking_witness :
    ((0x1000 : Nat) ≠ 0 ∧ (0 : Nat) % 0x1000 = 0
      ∧ 0 + erase_len_capped 0x20000 0x1000 (List.replicate 517 7).length 0 + 0x1000 ≤ U32
      ∧ (List.replicate 517 7).length + 4 ≤ W64) ∧
    (total_len (List.replicate 517 7).length = ((List.replicate 517 7).length + 3) / 4 * 4
    ∧ ∃ tr, sbl_program_binary perfectDev 0x20000 0x1000 (List.replicate 517 7) 0
          = some (0, tr)
        ∧ sentBytes tr = List.replicate 517 7 ++
            List.replicate (total_len (List.replicate 517 7).length
              - (List.replicate 517 7).length) 0xFF
        ∧ (sentBytes tr).length = total_len (List.replicate 517 7).length
        ∧ (∀ c, Ev.sendData c ∈ tr → 1 ≤ c.length ∧ c.length ≤ 252)
        ∧ sendCount tr = (total_len (List.replicate 517 7).length + 251) / 252
        ∧ ((List.replicate 517 7).length = 517 → sendCount tr = 3)) :=
  ⟨⟨by decide, by decide, by rw [List.length_replicate]; decide,
      by rw [List.length_replicate]; decide⟩,
    program_binary_chunking (List.replicate 517 7) 0x20000 0x1000 0
      (by decide) (by decide) (by rw [List.length_replicate]; decide)
      (by rw [List.length_replicate]; decide)⟩

/-- C1 is false as stated: against a device whose transport always works
but that answers every `get_status` — in particular the one following a
`sector_erase` — with `FLASH_FAIL` (0x44), `sbl_program_binary` does NOT
abort in the erase loop (the status value is only printed there), and it
issues `download`; the run only fails afterwards, at the post-`download`
status check. -/
theorem erase_status_abort_cex :
    flashFailDev.statusRes 0 = some (some 0x44)
  ∧ sbl_program_binary flashFailDev 0x20000 0x1000 [0, 0, 0, 0] 0
      = some (-1, [Ev.sectorErase 0, Ev.getStatus, Ev.download 0 4, Ev.getStatus])
  ∧ Ev.download 0 4 ∈
      [Ev.sectorErase 0, Ev.getStatus, Ev.download 0 4, Ev.getStatus] := by
  refine ⟨rfl, ?_, by decide⟩
  decide

/-- C1 (amended): in `sbl_program_binary`'s erase loop every
`sector_erase` is immediately followed by a `get_status` (except that a
`sector_erase` whose transport fails ends the trace), and a TRANSPORT
failure of `sector_erase` or of the following `get_status` aborts the
whole operation before `download` and before any `send_data`; but a
non-SUCCESS STATUS VALUE returned by a `get_status` of the erase loop
does not abort: the status byte is only printed, the loop continues, and
the workflow proceeds to issue `download`. -/
theorem erase_loop_amended (dev : Dev) (fs ps : Nat) (image : List Nat) (ba : Nat)
    (hps : ps ≠ 0) (hal : ba % ps = 0)
    (hU : ba + erase_len_capped fs ps image.length ba + ps ≤ U32) :
    (∀ r tr, sbl_program_binary dev fs ps image ba = some (r, tr) →
       ∀ i a, tr[i]? = some (Ev.sectorErase a) →
         tr[i + 1]? = some Ev.getStatus ∨ tr.length = i + 1)
  ∧ (∀ k, k * ps < erase_len_capped fs ps image.length ba →
       (dev.eraseOk k = false ∨ dev.statusRes k = none) →
       (∀ j, j < k → dev.eraseOk j = true ∧ dev.statusRes j ≠ none) →
       ∃ tr, sbl_program_binary dev fs ps image ba = some (-1, tr)
         ∧ (∀ a t2, Ev.download a t2 ∉ tr) ∧ (∀ c, Ev.sendData c ∉ tr))
  ∧ ((∀ j, dev.eraseOk j = true ∧ dev.statusRes j ≠ none) →
       ∃ r tr, sbl_program_binary dev fs ps image ba = some (r, tr)
         ∧ Ev.download ba (total_len image.length) ∈ tr) := by
  have hbound : (ba + erase_len_capped fs ps image.length ba) % U32
      = ba + erase_len_capped fs ps image.length ba :=
    Nat.mod_eq_of_lt (by omega)
  refine ⟨?_, ?_, ?_⟩
  · -- pairing over the whole trace
    intro r tr hrun i a
    rw [program_binary_eq dev fs ps image ba hps hal, hbound] at hrun
    rcases hE : eraseGo dev (ba + erase_len_capped fs ps image.length ba) ps
        (erase_len_capped fs ps image.length ba + 1) ba 0 0 with _ | ⟨trE, ok, nE2, nS2⟩
    · rw [hE] at hrun
      simp at hrun
    · rw [hE] at hrun
      have hsh := eraseGo_shape dev _ ps _ ba 0 0 trE ok nE2 nS2 hE
      cases ok with
      | false =>
        simp only [Option.some.injEq, Prod.mk.injEq] at hrun
        obtain ⟨-, rfl⟩ := hrun
        exact paired_index trE (hsh.2.2 rfl) i a
      | true =>
        have hPO := hsh.2.1 rfl
        by_cases hdl : dev.downloadOk
        · simp only [if_pos hdl] at hrun
          rcases hst : dev.statusRes nS2 with _ | v
          · rw [hst] at hrun
            simp only [Option.some.injEq, Prod.mk.injEq] at hrun
            obtain ⟨-, rfl⟩ := hrun
            simp only [List.append_assoc]
            refine paired_index _ (pairedOK_append _ _ hPO
              (paired_of_pairedOK _ (pairedOK_of_no_sectorErase _ ?_))) i a
            intro e he a2
            simp only [List.mem_append, List.mem_singleton] at he
            rcases he with rfl | rfl <;> simp
          · rw [hst] at hrun
            by_cases hv : v.getD 0 ≠ 0x40
            · simp only [if_pos hv, Option.some.injEq, Prod.mk.injEq] at hrun
              obtain ⟨-, rfl⟩ := hrun
              simp only [List.append_assoc]
              refine paired_index _ (pairedOK_append _ _ hPO
                (paired_of_pairedOK _ (pairedOK_of_no_sectorErase _ ?_))) i a
              intro e he a2
              simp only [List.mem_append, List.mem_singleton] at he
              rcases he with rfl | rfl <;> simp
            · simp only [if_neg hv] at hrun
              rcases hS : sendGo dev image (total_len image.length)
                  (total_len image.length + 1) 0 0 (nS2 + 1) with _ | ⟨trS, okS, x2, y2⟩
              · rw [hS] at hrun
                simp at hrun
              · rw [hS] at hrun
                have hSno := sendGo_no_sectorErase dev image _ _ _ _ _ trS okS x2 y2 hS
                cases okS with
                | false =>
                  simp only [Option.some.injEq, Prod.mk.injEq] at hrun
                  obtain ⟨-, rfl⟩ := hrun
                  simp only [List.append_assoc]
                  refine paired_index _ (pairedOK_append _ _ hPO
                    (paired_of_pairedOK _ (pairedOK_of_no_sectorErase _ ?_))) i a
                  intro e he a2
                  simp only [List.mem_append, List.mem_singleton] at he
                  rcases he with rfl | rfl | he
                  · simp
                  · simp
                  · exact hSno e he a2
                | true =>
                  simp only [Option.some.injEq, Prod.mk.injEq] at hrun
                  obtain ⟨-, rfl⟩ := hrun
                  simp only [List.append_assoc]
                  refine paired_index _ (pairedOK_append _ _ hPO
                    (paired_of_pairedOK _ (pairedOK_of_no_sectorErase _ ?_))) i a
                  intro e he a2
                  simp only [List.mem_append, List.mem_singleton] at he
                  rcases he with rfl | rfl | he | rfl
                  · simp
                  · simp
                  · exact hSno e he a2
                  · simp
        · simp only [if_neg hdl, Option.some.injEq, Prod.mk.injEq] at hrun
          obtain ⟨-, rfl⟩ := hrun
          refine paired_index _ (pairedOK_append _ _ hPO
            (paired_of_pairedOK _ (pairedOK_of_no_sectorErase _ ?_))) i a
          intro e he a2
          simp only [List.mem_singleton] at he
          subst he
          simp
  · -- a transport error in the erase phase aborts before download/send_data
    intro k hk hfail hclean
    have hkps : k ≤ k * ps := Nat.le_mul_of_pos_right k (by omega)
    obtain ⟨trE, nE2, nS2, hE⟩ :=
      eraseGo_abort dev (ba + erase_len_capped fs ps image.length ba) ps (by omega)
        k (erase_len_capped fs ps image.length ba + 1) ba 0 0 (by omega) (by omega)
        (by simpa using hfail) (by intro j hj; simpa using hclean j hj)
    have hsh := (eraseGo_shape dev _ ps _ ba 0 0 trE false nE2 nS2 hE).1
    refine ⟨trE, ?_, ?_, ?_⟩
    · rw [program_binary_eq dev fs ps image ba hps hal, hbound, hE]
    · intro a t2 hmem
      rcases hsh _ hmem with ⟨a2, he, -⟩ | he <;> simp at he
    · intro c hmem
      rcases hsh _ hmem with ⟨a2, he, -⟩ | he <;> simp at he
  · -- a transport-clean erase phase always reaches download
    intro hclean
    obtain ⟨trE, nE2, nS2, hE⟩ :=
      eraseGo_complete dev (ba + erase_len_capped fs ps image.length ba) ps
        (by omega) (by omega) hclean
        (erase_len_capped fs ps image.length ba + 1) ba 0 0 (by omega)
    by_cases hdl : dev.downloadOk
    · rcases hst : dev.statusRes nS2 with _ | v
      · refine ⟨-1, (trE ++ [Ev.download ba (total_len image.length)]) ++ [Ev.getStatus],
          ?_, by simp⟩
        rw [program_binary_eq dev fs ps image ba hps hal, hbound, hE]
        simp [hdl, hst]
      · by_cases hv : v.getD 0 ≠ 0x40
        · refine ⟨-1, (trE ++ [Ev.download ba (total_len image.length)]) ++ [Ev.getStatus],
            ?_, by simp⟩
          rw [program_binary_eq dev fs ps image ba hps hal, hbound, hE]
          simp [hdl, hst, hv]
        · have hsome := sendGo_isSome dev image (total_len image.length)
            (total_len image.length + 1) 0 0 (nS2 + 1) (by omega)
          rcases hS : sendGo dev image (total_len image.length)
              (total_len image.length + 1) 0 0 (nS2 + 1) with _ | ⟨trS, okS, x2, y2⟩
          · rw [hS] at hsome
            simp at hsome
          · cases okS with
            | false =>
              refine ⟨-1, ((trE ++ [Ev.download ba (total_len image.length)])
                  ++ [Ev.getStatus]) ++ trS, ?_, by simp⟩
              rw [program_binary_eq dev fs ps image ba hps hal, hbound, hE]
              simp [hdl, hst, hv, hS]
            | true =>
              refine ⟨0, (((trE ++ [Ev.download ba (total_len image.length)])
                  ++ [Ev.getStatus]) ++ trS) ++ [Ev.reset], ?_, by simp⟩
              rw [program_binary_eq dev fs ps image ba hps hal, hbound, hE]
              simp [hdl, hst, hv, hS]
    · refine ⟨-1, trE ++ [Ev.download ba (total_len image.length)], ?_, by simp⟩
      rw [program_binary_eq dev fs ps image ba hps hal, hbound, hE]
      simp [hdl]

/-- Witness for C1's amended theorem: a device whose transport fails on
the second `sector_erase` makes `sbl_program_binary` abort with no
`download` and no `send_data` issued. -/
theorem erase_loop_amended_witness :
    ((4 : Nat) ≠ 0 ∧ (0 : Nat) % 4 = 0
      ∧ 0 + erase_len_capped 0x100 4 ([1, 2, 3, 4, 5, 6] : List Nat).length 0 + 4 ≤ U32
      ∧ 1 * 4 < erase_len_capped 0x100 4 ([1, 2, 3, 4, 5, 6] : List Nat).length 0
      ∧ (eraseFailDev.eraseOk 1 = false ∨ eraseFailDev.statusRes 1 = none)) ∧
    (∃ tr, sbl_program_binary eraseFailDev 0x100 4 [1, 2, 3, 4, 5, 6] 0 = some (-1, tr)
      ∧ (∀ a t2, Ev.download a t2 ∉ tr) ∧ (∀ c, Ev.sendData c ∉ tr)) :=
  ⟨⟨by decide, by decide, by decide, by decide, by decide⟩,
    (erase_loop_amended eraseFailDev 0x100 4 [1, 2, 3, 4, 5, 6] 0 (by decide) (by decide)
        (by decide)).2.1 1 (by decide) (by decide)
      (by intro j hj
          have hj0 : j = 0 := by omega
          subst hj0
          exact ⟨rfl, by decide⟩)⟩

end CC1310
